import Mathlib

/-!
Verification development for the smart-knowledge-assistant repository.

The shallow embedding below models the core read/quota path
(`src/utils/history.py`), the chunk store written by the ingestion task
(`src/tasks/celery_tasks.py`) and read back by the retrieval router
(`src/routers/rag.py`), and the `/rag/ask` request handler itself.
Text is modelled as `List Char`; machine-level leaves (FAISS, the
embedding model, JSON rendering) are abstract parameters, as they are
out-of-scope collaborators in the design.
-/

namespace SKA

/-- Characters stripped by Python `str.strip()` with no arguments, i.e.
those for which `str.isspace()` holds: the ASCII controls U+0009–U+000D
and U+001C–U+001F, the space U+0020, next line U+0085, no-break space
U+00A0, Ogham space mark U+1680, the spaces U+2000–U+200A, line and
paragraph separators U+2028/U+2029, narrow no-break space U+202F, medium
mathematical space U+205F and ideographic space U+3000. -/
def pyIsSpace (c : Char) : Bool :=
  (9 ≤ c.toNat && c.toNat ≤ 13) || (28 ≤ c.toNat && c.toNat ≤ 31) ||
  c.toNat = 32 || c.toNat = 133 || c.toNat = 160 || c.toNat = 5760 ||
  (8192 ≤ c.toNat && c.toNat ≤ 8202) || c.toNat = 8232 || c.toNat = 8233 ||
  c.toNat = 8239 || c.toNat = 8287 || c.toNat = 12288

/-- Source-level text is modelled as a list of characters. -/
abbrev Str := List Char

/-- Python `str.lstrip()`. -/
def pyLStrip (s : Str) : Str := s.dropWhile pyIsSpace

/-- Python `str.strip()`: drop whitespace from both ends. -/
def pyStrip (s : Str) : Str := ((pyLStrip s).reverse.dropWhile pyIsSpace).reverse

/-- The character for a single decimal digit `d < 10`. -/
def digitChar (d : Nat) : Char := Char.ofNat (48 + d)

/-- Little-endian decimal digits of `n`, with explicit fuel so that the
definition is structural and kernel-reducible. -/
def toDigitsRev : Nat → Nat → List Nat
  | 0, _ => []
  | fuel + 1, n => if n = 0 then [] else n % 10 :: toDigitsRev fuel (n / 10)

/-- Decimal rendering of a natural number, as produced by Python `str`. -/
def natChars (n : Nat) : Str :=
  if n = 0 then ['0'] else ((toDigitsRev (n + 1) n).map digitChar).reverse

/-- Decimal rendering of an integer, as produced by Python `str`. -/
def intChars (i : Int) : Str :=
  if i < 0 then '-' :: natChars i.natAbs else natChars i.toNat

/-- Value of a big-endian string of decimal digits. -/
def digitsVal (s : Str) : Nat := s.foldl (fun a c => a * 10 + (c.toNat - 48)) 0

/-- Value of a string consisting solely of decimal digits, `none` otherwise. -/
def digitsOnlyVal (s : Str) : Option Nat :=
  if s.isEmpty || !(s.all Char.isDigit) then none else some (digitsVal s)

/-- Python `int(...)` applied to an already-stripped string: an optional
sign followed by decimal digits (the model does not accept underscore
separators, which never occur in the counter files the code writes). -/
def pyParseInt : Str → Option Int
  | [] => none
  | c :: rest =>
    if c = '+' then (digitsOnlyVal rest).map Int.ofNat
    else if c = '-' then (digitsOnlyVal rest).map (fun n => -Int.ofNat n)
    else (digitsOnlyVal (c :: rest)).map Int.ofNat

/-- Evaluation of `int(val or 0)` on the stripped file content, shared by
`_read_usage` and `_inc_usage` in `src/utils/history.py`; `none` models a
`ValueError` raised by `int`. -/
def parseCount (content : Str) : Option Int :=
  if (pyStrip content).isEmpty then some 0 else pyParseInt (pyStrip content)

/-- `_read_usage(user, day)` as a function of the counter-file content:
a missing file yields 0 and any exception (unparsable content) yields 0. -/
def readUsage (file : Option Str) : Int :=
  match file with
  | none => 0
  | some content => (parseCount content).getD 0

/-- The read→parse→increment→rewrite cycle of `_inc_usage`, performed under
the exclusive `flock`; the file is created empty when missing (`open` mode
`a+`), and `none` models the uncaught `ValueError` on unparsable content. -/
def incUsage (file : Option Str) : Option Str :=
  (parseCount (file.getD [])).map (fun v => intChars (v + 1))

/-- Durable-plus-cached state of the Usage Ledger and History Log, keyed by
user id and UTC day (days are modelled as naturals, one per calendar day):
`historyFile` is the list of raw lines of `history/{user}/{day}.jsonl` in
append order, `cache` is the in-process `_DAILY_CACHE`, and `usageFile` is
the content of `usage/{day}_{user}.count` (`none` = file absent). -/
structure LedgerState where
  historyFile : Nat → Nat → List Str
  cache : Nat → Nat → Nat
  usageFile : Nat → Nat → Option Str

/-- Pointwise update of a two-argument map. -/
def upd2 {α : Type} (f : Nat → Nat → α) (u d : Nat) (v : α) : Nat → Nat → α :=
  fun u' d' => if u' = u ∧ d' = d then v else f u' d'

/-- State with no history files, an empty cache and no counter files. -/
def emptyLedger : LedgerState :=
  { historyFile := fun _ _ => [], cache := fun _ _ => 0, usageFile := fun _ _ => none }

/-- `count_today`: the maximum of today's history-file line count, the
in-process cache and the persisted counter value. -/
def countToday (s : LedgerState) (user today : Nat) : Int :=
  max (max (((s.historyFile user today).length : Int)) ((s.cache user today : Int)))
    (readUsage (s.usageFile user today))

/-- `append_history_entry`: write one line to today's history file under the
exclusive lock, then bump the in-process cache, then `_inc_usage`.  The
error branch carries the state at the point the exception escaped:
`ioOk = false` models an I/O failure writing the history line (nothing has
changed yet), and an unparsable counter file makes `_inc_usage` raise after
the line and cache were already updated. -/
def appendHistoryEntry (ioOk : Bool) (s : LedgerState) (today user : Nat) (line : Str) :
    Except LedgerState LedgerState :=
  if !ioOk then .error s
  else
    let s1 : LedgerState :=
      { s with historyFile := upd2 s.historyFile user today (s.historyFile user today ++ [line]) }
    let s2 : LedgerState :=
      { s1 with cache := upd2 s1.cache user today (s1.cache user today + 1) }
    match incUsage (s2.usageFile user today) with
    | some newContent =>
        .ok { s2 with usageFile := upd2 s2.usageFile user today (some newContent) }
    | none => .error s2

/-- The `for idx, line in enumerate(rev)` loop of `list_history`: skip the
first `offset` reversed lines, stop once `limit` parsed items are
collected, and skip lines whose JSON fails to decode. -/
def listLoop {E : Type} (decode : Str → Option E) (offset limit : Nat) :
    List Str → Nat → List E → List E
  | [], _, items => items
  | line :: rest, idx, items =>
    if idx < offset then listLoop decode offset limit rest (idx + 1) items
    else if limit ≤ items.length then items
    else
      match decode line with
      | some e => listLoop decode offset limit rest (idx + 1) (items ++ [e])
      | none => listLoop decode offset limit rest (idx + 1) items

/-- `list_history(user_id, for_date, offset, limit)`: items most-recent
first, the total line count of the day's file, and the resolved day.  JSON
decoding of one line is an abstract parameter (`json.loads` may fail on a
truncated line, yielding `none`). -/
def listHistory {E : Type} (decode : Str → Option E) (s : LedgerState)
    (user day offset limit : Nat) : List E × Nat × Nat :=
  let lines := s.historyFile user day
  (listLoop decode offset limit lines.reverse 0 [], lines.length, day)

/-- The record separator `"\n---\n"` used by the Chunk Store. -/
def SEP : Str := ['\n', '-', '-', '-', '\n']

/-- Python `sep.join(chunks)`. -/
def joinSep (sep : Str) : List Str → Str
  | [] => []
  | [c] => c
  | c :: c2 :: cs => c ++ sep ++ joinSep sep (c2 :: cs)

/-- Leftmost occurrence of `sep` in a string: the text before it and the
text after it, `none` when `sep` does not occur. -/
def findSep (sep : Str) : Str → Option (Str × Str)
  | [] => none
  | c :: rest =>
    if sep.isPrefixOf (c :: rest) then some ([], (c :: rest).drop sep.length)
    else
      match findSep sep rest with
      | none => none
      | some (pre, post) => some (c :: pre, post)

/-- Split on every leftmost occurrence of `sep`; the fuel only bounds the
number of occurrences and `s.length` is always enough. -/
def splitGo (sep : Str) : Nat → Str → List Str
  | 0, s => [s]
  | fuel + 1, s =>
    match findSep sep s with
    | none => [s]
    | some (pre, post) => pre :: splitGo sep fuel post

/-- Python `content.split(sep)` for a non-empty separator. -/
def pySplit (sep s : Str) : List Str := splitGo sep s.length s

/-- Body of `get_chunks_for_doc` applied to the chunk-file content: strip
the whole content, treat an empty result as zero chunks, split on the
record separator and drop whitespace-only fragments. -/
def readChunksContent (data : Str) : List Str :=
  if (pyStrip data).isEmpty then []
  else (pySplit SEP (pyStrip data)).filter (fun c => !(pyStrip c).isEmpty)

/-- `get_chunks_for_doc`: a missing chunk file yields zero chunks. -/
def getChunksForDoc (file : Option Str) : List Str :=
  match file with
  | none => []
  | some data => readChunksContent data

/-- The chunk-file content written by `process_document_task`:
`"\n---\n".join(chunks)`. -/
def chunksFileContent (chunks : List Str) : Str := joinSep SEP chunks

/-- True when the string starts with a non-whitespace character. -/
def headNonWs : Str → Bool
  | [] => false
  | a :: _ => !pyIsSpace a

/-- The FAISS index as seen by the retrieval path: only its fixed
dimensionality is observable in the embedded fragment (search itself is an
out-of-scope leaf, see `AskEnv.search`). -/
structure FaissIndex where
  dim : Nat
deriving DecidableEq

/-- Durable per-document files under `FAISS_INDEX_PATH`:
`{doc_id}.index` and `{doc_id}_chunks.txt` (`none` = file absent). -/
structure DocStore where
  indexFile : Nat → Option FaissIndex
  chunkFile : Nat → Option Str

/-- The history entry assembled by `ask_question` (the generated id and
timestamp added inside `append_history_entry` live in the abstract JSON
rendering `AskEnv.encodeLine`). -/
structure HistEntry where
  user_id : Nat
  doc_id : Nat
  question : Str
  answer : Str
  context_preview : Str
  top_k : Nat
  chunk_indices : List Int

/-- Environment of one `/rag/ask` request: the document files, the
embed-then-search composite (an out-of-scope leaf returning `I[0]`, which
may contain out-of-range positions such as FAISS's `-1`), the abstract
JSON rendering of a history entry, and whether the history-file write
succeeds (fault injection for the append path). -/
structure AskEnv where
  store : DocStore
  search : Nat → Str → List Int
  encodeLine : HistEntry → Str
  appendIOOk : Bool

/-- Observable side-effects of the retrieval path, in program order. -/
inductive Effect
  | loadIndex
  | embedQuestion
  | searchIndex
  | readChunkStore
  | appendHistory
deriving DecidableEq, BEq

/-- Result of one `/rag/ask` call: a raised `HTTPException` for 429/404, the
empty-result 404 response, the 200 answer, or the generic 500 from an
uncaught exception. -/
inductive Outcome
  | quotaExceeded
  | notFound
  | noContext
  | answer (ans : Str) (context : List Str)
  | internalError
deriving DecidableEq, BEq

/-- HTTP status of each outcome as produced by the router and the installed
exception handlers. -/
def httpStatus : Outcome → Nat
  | .quotaExceeded => 429
  | .notFound => 404
  | .noContext => 404
  | .answer _ _ => 200
  | .internalError => 500

/-- Whether the outcome reaches the caller as a raised error (an
`HTTPException` or an unhandled exception) rather than a normal
`api_response` return. -/
def isErrorRaised : Outcome → Bool
  | .quotaExceeded => true
  | .notFound => true
  | .noContext => false
  | .answer _ _ => false
  | .internalError => true

/-- Whether the outcome is the 200 answer. -/
def isAnswer : Outcome → Bool
  | .answer _ _ => true
  | _ => false

/-- The list comprehension of `get_relevant_context`: keep only in-range
positions of `I[0]` and read the corresponding chunks. -/
def retrievedChunks (env : AskEnv) (docId : Nat) (question : Str) : List Str :=
  let chunks := getChunksForDoc (env.store.chunkFile docId)
  (env.search docId question).filterMap
    (fun i => if 0 ≤ i ∧ i < (chunks.length : Int) then chunks[i.toNat]? else none)

/-- Python `"\n".join(context_chunks)`. -/
def joinNl (l : List Str) : Str := joinSep ['\n'] l

/-- Python `s.replace("\n", " ")`. -/
def pyReplaceNl (s : Str) : Str := s.map (fun c => if c = '\n' then ' ' else c)

/-- `query_local_llm`: the deterministic answer stub. -/
def queryLocalLLM (question context : Str) : Str :=
  let preview := if context.isEmpty then [] else pyReplaceNl (context.take 200)
  String.toList "This is a stubbed answer for: '" ++ question
    ++ String.toList "'. Context preview: '" ++ preview ++ String.toList "...'"

/-- One `/rag/ask` request (`ask_question` in `src/routers/rag.py`):
enforce the daily limit, load the index (404 when absent), embed and
search, read the chunk store, return the empty-result 404 when no valid
chunk remains, otherwise synthesize the answer, append the history entry
and return 200.  The result carries the outcome, the ledger state after
the call, and the retrieval side-effects in program order. -/
def ask (env : AskEnv) (s : LedgerState) (today user docId : Nat) (question : Str)
    (dailyLimit : Int) : Outcome × LedgerState × List Effect :=
  if countToday s user today ≥ dailyLimit then (.quotaExceeded, s, [])
  else
    match env.store.indexFile docId with
    | none => (.notFound, s, [.loadIndex])
    | some _ =>
      let effs : List Effect := [.loadIndex, .embedQuestion, .searchIndex, .readChunkStore]
      let contextChunks := retrievedChunks env docId question
      if contextChunks.isEmpty then (.noContext, s, effs)
      else
        let context := joinNl contextChunks
        let answer := queryLocalLLM question context
        let entry : HistEntry :=
          { user_id := user, doc_id := docId, question := question, answer := answer,
            context_preview := context.take 300, top_k := 3,
            chunk_indices := env.search docId question }
        match appendHistoryEntry env.appendIOOk s today user (env.encodeLine entry) with
        | .ok s2 => (.answer answer contextChunks, s2, effs ++ [.appendHistory])
        | .error s2 => (.internalError, s2, effs ++ [.appendHistory])

/-- Ledger state after `n` consecutive `ask` calls starting from the empty
state (same user, document, question and day). -/
def askIter (env : AskEnv) (today user docId : Nat) (question : Str) (dailyLimit : Int) :
    Nat → LedgerState
  | 0 => emptyLedger
  | n + 1 =>
    (ask env (askIter env today user docId question dailyLimit n)
      today user docId question dailyLimit).2.1

/-- Environment of the ingestion task: document parsing (`none` models a
raised parse error, e.g. an unsupported extension), the text splitter, and
whether the embedding/indexing steps succeed. -/
structure TaskEnv where
  parseDoc : Str → Option Str
  splitText : Str → List Str
  embedOk : Bool
  dim : Nat

/-- One record of the in-memory `fake_documents_db` of
`src/routers/documents.py`. -/
structure DocRecord where
  filename : Str
  owner_id : Nat
  status : Str
  error : Option Str
deriving DecidableEq

/-- The document database: document id to record. -/
abbrev DocsDb := Nat → Option DocRecord

/-- `process_document_task`: parse, chunk, write the chunk file, fail on an
empty chunk list, embed, build and persist the index; any exception is
caught and turned into `False`.  The task receives the document database
to make its (absent) effect on document records checkable. -/
def processDocumentTask (env : TaskEnv) (store : DocStore) (db : DocsDb)
    (docId : Nat) (filePath : Str) : Bool × DocStore × DocsDb :=
  match env.parseDoc filePath with
  | none => (false, store, db)
  | some text =>
    let chunks := env.splitText text
    let store1 : DocStore :=
      { store with
          chunkFile := fun d => if d = docId then some (chunksFileContent chunks)
            else store.chunkFile d }
    if chunks.isEmpty then (false, store1, db)
    else if env.embedOk then
      (true,
        { store1 with
            indexFile := fun d => if d = docId then some ⟨env.dim⟩ else store1.indexFile d },
        db)
    else (false, store1, db)

/-- Program counter of one process running `_inc_usage`. -/
inductive PhaseP
  | idle
  | acquiredLock
  | haveRead (v : Int)
  | wroteBack
  | donePhase
deriving DecidableEq

/-- Shared state of `M` processes incrementing one `(user, day)` counter
file: the file content, the current `flock` holder, and each process's
phase. -/
structure CState (M : Nat) where
  file : Str
  lock : Option (Fin M)
  procs : Fin M → PhaseP

/-- Contribution of a process to the persisted counter: 1 once its write
has landed. -/
def contrib : PhaseP → Int
  | .wroteBack => 1
  | .donePhase => 1
  | _ => 0

/-- Whether a process is inside the critical section. -/
def holding : PhaseP → Bool
  | .acquiredLock => true
  | .haveRead _ => true
  | .wroteBack => true
  | _ => false

/-- Sum of the landed increments. -/
def sumContrib {M : Nat} (s : CState M) : Int :=
  Finset.univ.sum (fun i => contrib (s.procs i))

/-- Interleaving semantics of `M` concurrent `_inc_usage` calls on the same
counter file.  `flock(LOCK_EX)` blocks until no other process holds the
lock; read and write happen between acquire and release, in each process's
program order; the write stores `str(count + 1)`. -/
inductive IncStep (M : Nat) : CState M → CState M → Prop
  | acquire (s : CState M) (i : Fin M) :
      s.lock = none → s.procs i = .idle →
      IncStep M s ⟨s.file, some i, Function.update s.procs i .acquiredLock⟩
  | readFile (s : CState M) (i : Fin M) (v : Int) :
      s.procs i = .acquiredLock → parseCount s.file = some v →
      IncStep M s ⟨s.file, s.lock, Function.update s.procs i (.haveRead v)⟩
  | writeFile (s : CState M) (i : Fin M) (v : Int) :
      s.procs i = .haveRead v →
      IncStep M s ⟨intChars (v + 1), s.lock, Function.update s.procs i .wroteBack⟩
  | release (s : CState M) (i : Fin M) :
      s.procs i = .wroteBack →
      IncStep M s ⟨s.file, none, Function.update s.procs i .donePhase⟩

/-- Initial state: the counter file holds `c0` and every process is about
to run `_inc_usage`. -/
def initC (M : Nat) (c0 : Int) : CState M :=
  ⟨intChars c0, none, fun _ => .idle⟩

/-- Invariant tying the file content to the landed increments: the file
parses to the initial value plus the landed writes, only the lock holder
is inside the critical section, and a value read under the lock is still
current. -/
structure IncInv (M : Nat) (c0 : Int) (s : CState M) : Prop where
  fileOk : parseCount s.file = some (c0 + sumContrib s)
  lockOk : ∀ i, holding (s.procs i) = true → s.lock = some i
  readOk : ∀ i v, s.procs i = .haveRead v → v = c0 + sumContrib s

/-- The three chunks of the repository's own retrieval test. -/
def testChunks : List Str :=
  [String.toList "Chunk one", String.toList "Chunk two", String.toList "Chunk three"]

/-- Document store with an index and a chunk file for document 1. -/
def testStore : DocStore :=
  { indexFile := fun d => if d = 1 then some ⟨5⟩ else none,
    chunkFile := fun d => if d = 1 then some (chunksFileContent testChunks) else none }

/-- Ask environment over `testStore` whose search returns positions 0..2. -/
def testEnv : AskEnv :=
  { store := testStore, search := fun _ _ => [0, 1, 2],
    encodeLine := fun _ => String.toList "line", appendIOOk := true }

/-- Same environment with the chunk file absent (index present). -/
def testEnvNoChunks : AskEnv :=
  { testEnv with
      store := { indexFile := testStore.indexFile, chunkFile := fun _ => none } }

/-- Same environment with a failing history-file write. -/
def testEnvNoAppend : AskEnv := { testEnv with appendIOOk := false }

/-- A question of length at least 3, as the route validation requires. -/
def testQuestion : Str := String.toList "What is inside?"

/-- Ledger state whose in-process cache already reports 20 questions. -/
def atLimitLedger : LedgerState := { emptyLedger with cache := fun _ _ => 20 }

/-- Ingestion environment whose parse and embedding steps succeed. -/
def testTaskEnv : TaskEnv :=
  { parseDoc := fun _ => some (String.toList "Hello world"),
    splitText := fun t => [t], embedOk := true, dim := 5 }

/-- Document database holding one freshly uploaded record. -/
def testDb : DocsDb :=
  fun d => if d = 1 then
    some { filename := String.toList "a.txt", owner_id := 7,
           status := String.toList "pending", error := none }
  else none

/-- Final state of a one-process increment run, as produced by the
acquire → read → write → release steps from `initC 1 0`. -/
def oneRunFinal : CState 1 :=
  ⟨intChars (0 + 1), none,
    Function.update (Function.update (Function.update (Function.update
      (fun _ => PhaseP.idle) 0 .acquiredLock) 0 (.haveRead 0)) 0 .wroteBack) 0 .donePhase⟩

theorem toDigitsRev_eq_digits : ∀ fuel n, n ≤ fuel → toDigitsRev fuel n = Nat.digits 10 n := by
  intro fuel
  induction fuel with
  | zero =>
    intro n hn
    interval_cases n
    simp [toDigitsRev]
  | succ f ih =>
    intro n hn
    by_cases h0 : n = 0
    · subst h0; simp [toDigitsRev]
    · rw [toDigitsRev, if_neg h0,
        Nat.digits_def' (by norm_num : 1 < 10) (Nat.pos_of_ne_zero h0), ih]
      have := Nat.div_lt_self (Nat.pos_of_ne_zero h0) (by norm_num : 1 < 10)
      omega

theorem digitsVal_append_singleton (s : Str) (c : Char) :
    digitsVal (s ++ [c]) = digitsVal s * 10 + (c.toNat - 48) := by
  simp [digitsVal, List.foldl_append]

theorem digitChar_facts {d : Nat} (hd : d < 10) :
    (digitChar d).toNat - 48 = d ∧ (digitChar d).isDigit = true ∧
      pyIsSpace (digitChar d) = false ∧ digitChar d ≠ '+' ∧ digitChar d ≠ '-' := by
  interval_cases d <;> exact ⟨by decide, by decide, by decide, by decide, by decide⟩

theorem digitsVal_map_reverse : ∀ L : List Nat, (∀ d ∈ L, d < 10) →
    digitsVal ((L.map digitChar).reverse) = Nat.ofDigits 10 L := by
  intro L
  induction L with
  | nil => intro _; simp [digitsVal, Nat.ofDigits]
  | cons d T ih =>
    intro h
    have hd : d < 10 := h d (by simp)
    rw [List.map_cons, List.reverse_cons, digitsVal_append_singleton,
      ih (fun x hx => h x (by simp [hx])), (digitChar_facts hd).1, Nat.ofDigits_cons]
    ring

theorem natChars_digitsVal (n : Nat) : digitsVal (natChars n) = n := by
  by_cases h0 : n = 0
  · subst h0; decide
  · rw [natChars, if_neg h0, toDigitsRev_eq_digits _ _ (Nat.le_succ n),
      digitsVal_map_reverse _ (fun d hd => Nat.digits_lt_base (by norm_num) hd),
      Nat.ofDigits_digits]

theorem natChars_mem (n : Nat) : ∀ c ∈ natChars n,
    c.isDigit = true ∧ pyIsSpace c = false ∧ c ≠ '+' ∧ c ≠ '-' := by
  by_cases h0 : n = 0
  · subst h0
    intro c hc
    have h0' : natChars 0 = ['0'] := by decide
    rw [h0', List.mem_singleton] at hc
    subst hc
    exact ⟨by decide, by decide, by decide, by decide⟩
  · rw [natChars, if_neg h0]
    intro c hc
    rw [List.mem_reverse, List.mem_map] at hc
    obtain ⟨d, hd, rfl⟩ := hc
    have hdlt : d < 10 := by
      rw [toDigitsRev_eq_digits _ _ (Nat.le_succ n)] at hd
      exact Nat.digits_lt_base (by norm_num) hd
    exact ⟨(digitChar_facts hdlt).2.1, (digitChar_facts hdlt).2.2.1,
      (digitChar_facts hdlt).2.2.2.1, (digitChar_facts hdlt).2.2.2.2⟩

theorem natChars_ne_nil (n : Nat) : natChars n ≠ [] := by
  by_cases h0 : n = 0
  · subst h0; simp [natChars]
  · rw [natChars, if_neg h0]
    intro h
    rw [List.reverse_eq_nil_iff, List.map_eq_nil_iff,
      toDigitsRev_eq_digits _ _ (Nat.le_succ n)] at h
    exact h0 (Nat.digits_eq_nil_iff_eq_zero.mp h)

theorem pyStrip_noop (s : Str) (hall : ∀ c ∈ s, pyIsSpace c = false) : pyStrip s = s := by
  have h1 : pyLStrip s = s := by
    apply List.dropWhile_eq_self_iff.mpr
    intro h
    simp only [Bool.not_eq_true]
    exact hall _ (List.get_mem s 0 h)
  rw [pyStrip, h1]
  have h2 : s.reverse.dropWhile pyIsSpace = s.reverse := by
    apply List.dropWhile_eq_self_iff.mpr
    intro h
    simp only [Bool.not_eq_true]
    exact hall _ (List.mem_reverse.mp (List.get_mem s.reverse 0 h))
  rw [h2, List.reverse_reverse]

theorem digitsOnlyVal_natChars (n : Nat) : digitsOnlyVal (natChars n) = some n := by
  rw [digitsOnlyVal, if_neg, natChars_digitsVal]
  simp only [Bool.or_eq_true, List.isEmpty_iff, Bool.not_eq_true', not_or]
  refine ⟨natChars_ne_nil n, ?_⟩
  rw [Bool.not_eq_false, List.all_eq_true]
  intro c hc
  exact (natChars_mem n c hc).1

theorem pyParseInt_natChars (n : Nat) : pyParseInt (natChars n) = some (n : Int) := by
  obtain ⟨c, t, h⟩ := List.exists_cons_of_ne_nil (natChars_ne_nil n)
  have hc := natChars_mem n c (by rw [h]; exact List.mem_cons_self c t)
  rw [h, pyParseInt, if_neg hc.2.2.1, if_neg hc.2.2.2, ← h, digitsOnlyVal_natChars]
  rfl

theorem pyStrip_natChars (n : Nat) : pyStrip (natChars n) = natChars n :=
  pyStrip_noop _ (fun c hc => (natChars_mem n c hc).2.1)

theorem intChars_ofNat (n : Nat) : intChars (n : Int) = natChars n := by
  unfold intChars
  rw [if_neg (by omega)]
  simp

theorem parseCount_natChars (n : Nat) : parseCount (natChars n) = some (n : Int) := by
  rw [parseCount, pyStrip_natChars,
    if_neg (by simp [List.isEmpty_iff, natChars_ne_nil n]), pyParseInt_natChars]

theorem pyStrip_intChars (v : Int) : pyStrip (intChars v) = intChars v := by
  apply pyStrip_noop
  intro c hc
  unfold intChars at hc
  by_cases hv : v < 0
  · rw [if_pos hv] at hc
    rcases List.mem_cons.mp hc with h | h
    · subst h; decide
    · exact (natChars_mem _ c h).2.1
  · rw [if_neg hv] at hc
    exact (natChars_mem _ c hc).2.1

theorem parseCount_intChars (v : Int) : parseCount (intChars v) = some v := by
  by_cases hv : v < 0
  · have h1 : intChars v = '-' :: natChars v.natAbs := by
      unfold intChars
      rw [if_pos hv]
    rw [parseCount, pyStrip_intChars, h1, if_neg (by simp)]
    have h2 : pyParseInt ('-' :: natChars v.natAbs)
        = (digitsOnlyVal (natChars v.natAbs)).map (fun n => -Int.ofNat n) := by
      simp [pyParseInt]
    rw [h2, digitsOnlyVal_natChars, Option.map_some']
    congr 1
    rw [Int.ofNat_eq_natCast, Int.natCast_natAbs, abs_of_neg hv]
    ring
  · have h1 : intChars v = natChars v.toNat := by
      unfold intChars
      rw [if_neg hv]
    rw [parseCount, pyStrip_intChars, h1,
      if_neg (by simp [List.isEmpty_iff, natChars_ne_nil]), pyParseInt_natChars]
    congr 1
    omega

theorem readUsage_none : readUsage none = 0 := rfl

theorem readUsage_natChars (n : Nat) : readUsage (some (natChars n)) = (n : Int) := by
  rw [readUsage, parseCount_natChars]
  rfl

theorem incUsage_none : incUsage none = some (natChars 1) := by decide

theorem incUsage_natChars (k : Nat) : incUsage (some (natChars k)) = some (natChars (k + 1)) := by
  rw [incUsage]
  simp only [Option.getD_some, parseCount_natChars, Option.map_some']
  have : ((k : Int) + 1) = ((k + 1 : Nat) : Int) := by push_cast; ring
  rw [this, intChars_ofNat]

theorem findSep_sound (sep : Str) :
    ∀ s pre post, findSep sep s = some (pre, post) → s = pre ++ sep ++ post := by
  intro s
  induction s with
  | nil => intro pre post h; simp [findSep] at h
  | cons c rest ih =>
    intro pre post h
    rw [findSep] at h
    by_cases hp : sep.isPrefixOf (c :: rest)
    · rw [if_pos hp, Option.some_inj] at h
      obtain ⟨t, ht⟩ := List.isPrefixOf_iff_prefix.mp hp
      have hdrop : (c :: rest).drop sep.length = t := by rw [← ht, List.drop_left]
      rw [hdrop] at h
      obtain ⟨h1, h2⟩ := Prod.mk.injEq .. ▸ h
      subst h1
      subst h2
      simp [← ht]
    · rw [if_neg hp] at h
      cases hrec : findSep sep rest with
      | none => rw [hrec] at h; simp at h
      | some pp =>
        obtain ⟨p1, p2⟩ := pp
        rw [hrec] at h
        simp only [Option.some.injEq, Prod.mk.injEq] at h
        obtain ⟨h1, h2⟩ := h
        subst h1
        subst h2
        have := ih p1 p2 hrec
        simp [this]

theorem findSep_post_length (sep : Str) (hsep : sep ≠ []) (s pre post : Str)
    (h : findSep sep s = some (pre, post)) : post.length + 1 ≤ s.length := by
  have hs := findSep_sound sep s pre post h
  have hne : 1 ≤ sep.length := by
    cases sep with
    | nil => exact absurd rfl hsep
    | cons a t => simp
  have : s.length = pre.length + sep.length + post.length := by
    rw [hs]; simp [List.length_append]; omega
  omega

theorem findSep_none_no_newline : ∀ s : Str, '\n' ∉ s → findSep SEP s = none := by
  intro s
  induction s with
  | nil => intro _; rfl
  | cons c rest ih =>
    intro h
    have hc : c ≠ '\n' := fun hh => h (hh ▸ List.mem_cons_self c rest)
    have hnp : ¬SEP.isPrefixOf (c :: rest) = true := by
      simp only [SEP, List.isPrefixOf, Bool.and_eq_true, beq_iff_eq]
      intro hco
      exact hc hco.1.symm
    rw [findSep, if_neg hnp, ih (fun hm => h (List.mem_cons_of_mem c hm))]

theorem findSep_prepend : ∀ c t : Str, '\n' ∉ c → findSep SEP (c ++ SEP ++ t) = some (c, t) := by
  intro c
  induction c with
  | nil =>
    intro t _
    have hsplit : ([] : Str) ++ SEP ++ t = '\n' :: (['-', '-', '-', '\n'] ++ t) := rfl
    rw [hsplit, findSep]
    have hp : SEP.isPrefixOf ('\n' :: (['-', '-', '-', '\n'] ++ t)) = true := by
      simp [List.isPrefixOf_iff_prefix]
      exact ⟨t, rfl⟩
    rw [if_pos hp]
    have hdrop : ('\n' :: (['-', '-', '-', '\n'] ++ t)).drop SEP.length = t := by
      have : ('\n' :: (['-', '-', '-', '\n'] ++ t)) = SEP ++ t := rfl
      rw [this, List.drop_left]
    rw [hdrop]
  | cons a c' ih =>
    intro t h
    have ha : a ≠ '\n' := fun hh => h (hh ▸ List.mem_cons_self a c')
    have hsplit : (a :: c') ++ SEP ++ t = a :: (c' ++ SEP ++ t) := rfl
    rw [hsplit, findSep]
    have hnp : ¬SEP.isPrefixOf (a :: (c' ++ SEP ++ t)) = true := by
      simp only [SEP, List.isPrefixOf, Bool.and_eq_true, beq_iff_eq]
      intro hco
      exact ha hco.1.symm
    rw [if_neg hnp, ih t (fun hm => h (List.mem_cons_of_mem a hm))]

theorem splitGo_congr (sep : Str) (hsep : sep ≠ []) :
    ∀ f1 f2 s, s.length ≤ f1 → s.length ≤ f2 → splitGo sep f1 s = splitGo sep f2 s := by
  intro f1
  induction f1 with
  | zero =>
    intro f2 s h1 _
    have hs : s = [] := List.length_eq_zero.mp (by omega)
    subst hs
    cases f2 with
    | zero => rfl
    | succ g => simp [splitGo, findSep]
  | succ f ih =>
    intro f2 s h1 h2
    cases f2 with
    | zero =>
      have hs : s = [] := List.length_eq_zero.mp (by omega)
      subst hs
      simp [splitGo, findSep]
    | succ g =>
      rw [splitGo, splitGo]
      cases hf : findSep sep s with
      | none => rfl
      | some pp =>
        obtain ⟨pre, post⟩ := pp
        have hlen := findSep_post_length sep hsep s pre post hf
        dsimp only
        rw [ih g post (by omega) (by omega)]

theorem pySplit_join : ∀ cs : List Str, cs ≠ [] → (∀ c ∈ cs, '\n' ∉ c) →
    pySplit SEP (joinSep SEP cs) = cs := by
  intro cs
  induction cs with
  | nil => intro h _; exact absurd rfl h
  | cons c1 cs' ih =>
    intro _ hnl
    cases cs' with
    | nil =>
      have hj : joinSep SEP [c1] = c1 := rfl
      rw [hj, pySplit]
      cases c1 with
      | nil => rfl
      | cons a t =>
        have hlen : (a :: t).length = t.length + 1 := by simp
        rw [hlen, splitGo, findSep_none_no_newline _ (hnl (a :: t) (by simp))]
    | cons c2 cs'' =>
      have hj : joinSep SEP (c1 :: c2 :: cs'') = c1 ++ SEP ++ joinSep SEP (c2 :: cs'') := by
        rw [joinSep]
      rw [pySplit, hj]
      have hlen : (c1 ++ SEP ++ joinSep SEP (c2 :: cs'')).length
          = (c1.length + 4 + (joinSep SEP (c2 :: cs'')).length) + 1 := by
        simp [SEP, List.length_append]
        omega
      rw [hlen, splitGo, findSep_prepend c1 _ (hnl c1 (by simp))]
      have hrest := ih (by simp) (fun c hc => hnl c (List.mem_cons_of_mem c1 hc))
      dsimp only
      rw [splitGo_congr SEP (by decide)
        (c1.length + 4 + (joinSep SEP (c2 :: cs'')).length)
        ((joinSep SEP (c2 :: cs'')).length) (joinSep SEP (c2 :: cs''))
        (by omega) (le_refl _)]
      rw [← pySplit, hrest]

theorem joinSep_first (c : Str) (cs : List Str) : ∃ X, joinSep SEP (c :: cs) = c ++ X := by
  cases cs with
  | nil => exact ⟨[], by simp [joinSep]⟩
  | cons c2 cs' =>
    refine ⟨SEP ++ joinSep SEP (c2 :: cs'), ?_⟩
    rw [joinSep]
    simp [List.append_assoc]

theorem joinSep_last : ∀ (cs : List Str) (h : cs ≠ []), ∃ Y, joinSep SEP cs = Y ++ cs.getLast h := by
  intro cs
  induction cs with
  | nil => intro h; exact absurd rfl h
  | cons c cs' ih =>
    intro h
    cases cs' with
    | nil => exact ⟨[], by simp [joinSep]⟩
    | cons c2 cs'' =>
      obtain ⟨Y', hY⟩ := ih (by simp)
      refine ⟨c ++ SEP ++ Y', ?_⟩
      rw [joinSep, hY, List.getLast_cons (by simp : (c2 :: cs'') ≠ [])]
      simp [List.append_assoc]

theorem headNonWs_append (c X : Str) (h : headNonWs c = true) : headNonWs (c ++ X) = true := by
  cases c with
  | nil => exact absurd h (by simp [headNonWs])
  | cons a t => exact h

theorem headNonWs_ne_nil (s : Str) (h : headNonWs s = true) : s ≠ [] := by
  cases s with
  | nil => exact absurd h (by simp [headNonWs])
  | cons a t => simp

theorem pyLStrip_noop_head (s : Str) (h : headNonWs s = true) : pyLStrip s = s := by
  cases s with
  | nil => rfl
  | cons a t =>
    have ha : pyIsSpace a = false := by
      have := h
      simp only [headNonWs, Bool.not_eq_true'] at this
      exact this
    simp [pyLStrip, List.dropWhile_cons, ha]

theorem pyStrip_noop_ends (s : Str) (h1 : headNonWs s = true) (h2 : headNonWs s.reverse = true) :
    pyStrip s = s := by
  rw [pyStrip, pyLStrip_noop_head s h1]
  cases hrev : s.reverse with
  | nil => exact absurd (hrev ▸ h2) (by simp [headNonWs])
  | cons b u =>
    have hb : pyIsSpace b = false := by
      have := hrev ▸ h2
      simp only [headNonWs, Bool.not_eq_true'] at this
      exact this
    have hdw : (b :: u).dropWhile pyIsSpace = b :: u := by
      simp [List.dropWhile_cons, hb]
    rw [hdw, ← hrev, List.reverse_reverse]

theorem pyStrip_eq_nil_iff (c : Str) : pyStrip c = [] ↔ ∀ x ∈ c, pyIsSpace x = true := by
  rw [pyStrip]
  rw [List.reverse_eq_nil_iff, List.dropWhile_eq_nil_iff]
  constructor
  · intro h x hx
    have hdecomp : c.takeWhile pyIsSpace ++ c.dropWhile pyIsSpace = c :=
      List.takeWhile_append_dropWhile pyIsSpace c
    rw [← hdecomp] at hx
    rcases List.mem_append.mp hx with hm | hm
    · exact List.mem_takeWhile_imp hm
    · exact h x (List.mem_reverse.mpr hm)
  · intro h x hx
    exact h x ((List.dropWhile_sublist pyIsSpace).mem (List.mem_reverse.mp hx))

theorem pyStrip_isEmpty_all (c : Str) : (pyStrip c).isEmpty = c.all pyIsSpace := by
  by_cases h : ∀ x ∈ c, pyIsSpace x = true
  · rw [(pyStrip_eq_nil_iff c).mpr h]
    simp [List.all_eq_true.mpr h]
  · have hne : pyStrip c ≠ [] := fun hh => h ((pyStrip_eq_nil_iff c).mp hh)
    cases hall : c.all pyIsSpace with
    | true => exact absurd (fun x hx => List.all_eq_true.mp hall x hx) h
    | false => simpa [List.isEmpty_iff] using hne

theorem readChunks_write (chunks : List Str) (hne : chunks ≠ [])
    (hnl : ∀ c ∈ chunks, '\n' ∉ c)
    (hfirst : headNonWs chunks.headI = true)
    (hlast : headNonWs (chunks.getLast hne).reverse = true) :
    readChunksContent (chunksFileContent chunks) = chunks.filter (fun c => !(c.all pyIsSpace)) := by
  cases chunks with
  | nil => exact absurd rfl hne
  | cons c1 cs' =>
    have hfirst' : headNonWs c1 = true := hfirst
    have hsn : pyStrip (chunksFileContent (c1 :: cs')) = chunksFileContent (c1 :: cs') := by
      apply pyStrip_noop_ends
      · obtain ⟨X, hX⟩ := joinSep_first c1 cs'
        rw [chunksFileContent, hX]
        exact headNonWs_append c1 X hfirst'
      · obtain ⟨Y, hY⟩ := joinSep_last (c1 :: cs') hne
        rw [chunksFileContent, hY, List.reverse_append]
        exact headNonWs_append _ _ hlast
    have hjne : chunksFileContent (c1 :: cs') ≠ [] := by
      obtain ⟨X, hX⟩ := joinSep_first c1 cs'
      rw [chunksFileContent, hX]
      exact headNonWs_ne_nil _ (headNonWs_append c1 X hfirst')
    rw [readChunksContent, hsn, if_neg (by simpa [List.isEmpty_iff] using hjne)]
    rw [chunksFileContent, pySplit_join (c1 :: cs') hne hnl]
    apply List.filter_congr
    intro c _
    rw [pyStrip_isEmpty_all]

theorem listLoop_spec {E : Type} (decode : Str → Option E) (offset limit : Nat) :
    ∀ (l : List Str) (idx : Nat) (items : List E),
      listLoop decode offset limit l idx items
        = items ++ (((l.drop (offset - idx)).filterMap decode).take (limit - items.length)) := by
  intro l
  induction l with
  | nil => intro idx items; simp [listLoop]
  | cons line rest ih =>
    intro idx items
    rw [listLoop]
    by_cases h1 : idx < offset
    · rw [if_pos h1, ih (idx + 1) items]
      have : offset - idx = (offset - (idx + 1)) + 1 := by omega
      rw [this, List.drop_succ_cons]
    · have hoff : offset - idx = 0 := by omega
      have hstep : offset - (idx + 1) = 0 := by omega
      rw [if_neg h1, hoff, List.drop_zero]
      by_cases h2 : limit ≤ items.length
      · rw [if_pos h2]
        have : limit - items.length = 0 := by omega
        rw [this]
        simp
      · rw [if_neg h2]
        cases hdec : decode line with
        | some e =>
          dsimp only
          rw [ih (idx + 1) (items ++ [e])]
          rw [hstep, List.drop_zero, List.filterMap_cons_some hdec]
          have hlim : limit - items.length = (limit - (items ++ [e]).length) + 1 := by
            have : (items ++ [e]).length = items.length + 1 := by simp
            omega
          rw [hlim, List.take_succ_cons, List.append_assoc]
          rfl
        | none =>
          dsimp only
          rw [ih (idx + 1) items]
          rw [hstep, List.drop_zero, List.filterMap_cons_none hdec]

theorem ask_quota (env : AskEnv) (s : LedgerState) (today user docId : Nat) (q : Str)
    (limit : Int) (h : countToday s user today ≥ limit) :
    ask env s today user docId q limit = (.quotaExceeded, s, []) := by
  rw [ask, if_pos h]

theorem appendHistoryEntry_ok (s : LedgerState) (today user : Nat) (line : Str) (k : Nat)
    (husage : s.usageFile user today = if k = 0 then none else some (natChars k)) :
    appendHistoryEntry true s today user line = .ok
      { historyFile := upd2 s.historyFile user today (s.historyFile user today ++ [line]),
        cache := upd2 s.cache user today (s.cache user today + 1),
        usageFile := upd2 s.usageFile user today (some (natChars (k + 1))) } := by
  have hinc : incUsage (s.usageFile user today) = some (natChars (k + 1)) := by
    by_cases hk : k = 0
    · rw [if_pos hk] at husage
      rw [husage, incUsage_none, hk]
    · rw [if_neg hk] at husage
      rw [husage, incUsage_natChars]
  simp only [appendHistoryEntry, Bool.not_true, Bool.false_eq_true, if_false, hinc]

theorem countToday_of_parts (s : LedgerState) (user today k : Nat)
    (h1 : (s.historyFile user today).length = k)
    (h2 : s.cache user today = k)
    (h3 : s.usageFile user today = if k = 0 then none else some (natChars k)) :
    countToday s user today = (k : Int) := by
  rw [countToday, h1, h2]
  by_cases hk : k = 0
  · rw [if_pos hk] at h3
    rw [h3, readUsage_none]
    omega
  · rw [if_neg hk] at h3
    rw [h3, readUsage_natChars]
    omega

theorem ask_success_state (env : AskEnv) (s : LedgerState) (today user docId : Nat) (q : Str)
    (limit : Int) (k : Nat)
    (hq : countToday s user today < limit)
    (hidx : (env.store.indexFile docId).isSome = true)
    (hctx : retrievedChunks env docId q ≠ [])
    (hio : env.appendIOOk = true)
    (hhist : (s.historyFile user today).length = k)
    (hcache : s.cache user today = k)
    (husage : s.usageFile user today = if k = 0 then none else some (natChars k)) :
    ∃ ans ctx s2,
      ask env s today user docId q limit
          = (.answer ans ctx, s2,
            [.loadIndex, .embedQuestion, .searchIndex, .readChunkStore, .appendHistory]) ∧
      (s2.historyFile user today).length = k + 1 ∧
      s2.cache user today = k + 1 ∧
      s2.usageFile user today = some (natChars (k + 1)) ∧
      (∀ u d, ¬(u = user ∧ d = today) →
        s2.historyFile u d = s.historyFile u d ∧ s2.cache u d = s.cache u d ∧
          s2.usageFile u d = s.usageFile u d) := by
  obtain ⟨idx, hidx'⟩ := Option.isSome_iff_exists.mp hidx
  have hctxb : (retrievedChunks env docId q).isEmpty = false := by
    simpa [List.isEmpty_iff] using hctx
  rw [ask, if_neg (by omega), hidx']
  dsimp only
  rw [hctxb]
  simp only [Bool.false_eq_true, if_false]
  rw [hio, appendHistoryEntry_ok s today user _ k husage]
  dsimp only
  refine ⟨_, _, _, rfl, ?_, ?_, ?_, ?_⟩
  · simp [upd2, hhist]
  · simp [upd2, hcache]
  · simp [upd2]
  · intro u d hud
    simp [upd2, hud]

theorem askIter_inv (env : AskEnv) (today user docId : Nat) (q : Str) (L : Int)
    (hidx : (env.store.indexFile docId).isSome = true)
    (hctx : retrievedChunks env docId q ≠ [])
    (hio : env.appendIOOk = true) :
    ∀ k : Nat, (k : Int) ≤ L →
      ((askIter env today user docId q L k).historyFile user today).length = k ∧
      (askIter env today user docId q L k).cache user today = k ∧
      ((askIter env today user docId q L k).usageFile user today
        = if k = 0 then none else some (natChars k)) ∧
      (∀ u d, ¬(u = user ∧ d = today) →
        (askIter env today user docId q L k).historyFile u d = [] ∧
        (askIter env today user docId q L k).cache u d = 0 ∧
        (askIter env today user docId q L k).usageFile u d = none) ∧
      (∀ j : Nat, j < k →
        isAnswer (ask env (askIter env today user docId q L j) today user docId q L).1 = true) := by
  intro k
  induction k with
  | zero =>
    intro _
    refine ⟨rfl, rfl, rfl, fun u d _ => ⟨rfl, rfl, rfl⟩, fun j hj => absurd hj (by omega)⟩
  | succ m ih =>
    intro hm
    obtain ⟨h1, h2, h3, h4, h5⟩ := ih (by push_cast at hm ⊢; omega)
    have hcount : countToday (askIter env today user docId q L m) user today = (m : Int) :=
      countToday_of_parts _ user today m h1 h2 h3
    have hq : countToday (askIter env today user docId q L m) user today < L := by
      rw [hcount]; push_cast at hm; omega
    obtain ⟨ans, ctx, s2, heq, g1, g2, g3, g4⟩ :=
      ask_success_state env (askIter env today user docId q L m) today user docId q L m
        hq hidx hctx hio h1 h2 h3
    have hiter : askIter env today user docId q L (m + 1) = s2 := by
      rw [askIter, heq]
    refine ⟨?_, ?_, ?_, ?_, ?_⟩
    · rw [hiter]; exact g1
    · rw [hiter]; exact g2
    · rw [hiter, g3]; simp
    · intro u d hud
      rw [hiter]
      obtain ⟨e1, e2, e3⟩ := g4 u d hud
      obtain ⟨f1, f2, f3⟩ := h4 u d hud
      exact ⟨e1.trans f1, e2.trans f2, e3.trans f3⟩
    · intro j hj
      by_cases hjm : j < m
      · exact h5 j hjm
      · have : j = m := by omega
        subst this
        rw [heq]
        rfl

theorem sumContrib_update {M : Nat} (s : CState M) (i : Fin M) (p : PhaseP) :
    (Finset.univ.sum fun j => contrib (Function.update s.procs i p j))
      = sumContrib s - contrib (s.procs i) + contrib p := by
  have hfun : (fun j => contrib (Function.update s.procs i p j))
      = Function.update (fun j => contrib (s.procs j)) i (contrib p) := by
    funext j
    by_cases hj : j = i
    · subst hj; simp [Function.update_same]
    · simp [Function.update_noteq hj]
  rw [hfun, Finset.sum_update_of_mem (Finset.mem_univ i),
    Finset.sdiff_singleton_eq_erase, Finset.sum_erase_eq_sub (Finset.mem_univ i)]
  rw [sumContrib]
  ring

theorem holding_donePhase_false : holding .donePhase = false := rfl

theorem incInv_step {M : Nat} {c0 : Int} {s s' : CState M}
    (hstep : IncStep M s s') (hinv : IncInv M c0 s) : IncInv M c0 s' := by
  obtain ⟨hfile, hlock, hread⟩ := hinv
  cases hstep with
  | acquire i hl hidle =>
    have hsum : sumContrib ⟨s.file, some i, Function.update s.procs i .acquiredLock⟩
        = sumContrib s := by
      show (Finset.univ.sum fun j => contrib (Function.update s.procs i .acquiredLock j)) = _
      rw [sumContrib_update, hidle]
      simp [contrib]
    refine ⟨by rw [hsum]; exact hfile, ?_, ?_⟩
    · intro j hj
      dsimp only at hj
      by_cases hji : j = i
      · subst hji; rfl
      · have : holding (s.procs j) = true := by
          have := hj
          simpa [Function.update_noteq hji] using this
        exact absurd (hlock j this) (by rw [hl]; simp)
    · intro j v hj
      dsimp only at hj
      by_cases hji : j = i
      · subst hji
        rw [Function.update_same] at hj
        exact absurd hj (by simp)
      · rw [Function.update_noteq hji] at hj
        rw [hsum]
        exact hread j v hj
  | readFile i v hacq hparse =>
    have hsum : sumContrib ⟨s.file, s.lock, Function.update s.procs i (.haveRead v)⟩
        = sumContrib s := by
      show (Finset.univ.sum fun j => contrib (Function.update s.procs i (.haveRead v) j)) = _
      rw [sumContrib_update, hacq]
      simp [contrib]
    have hv : v = c0 + sumContrib s := by
      rw [hfile] at hparse
      exact (Option.some_inj.mp hparse).symm
    refine ⟨by rw [hsum]; exact hfile, ?_, ?_⟩
    · intro j hj
      dsimp only at hj
      by_cases hji : j = i
      · subst hji
        exact hlock j (by rw [hacq]; rfl)
      · have : holding (s.procs j) = true := by simpa [Function.update_noteq hji] using hj
        exact hlock j this
    · intro j w hj
      dsimp only at hj
      by_cases hji : j = i
      · subst hji
        rw [Function.update_same] at hj
        have : w = v := by
          cases hj
          rfl
        rw [this, hsum]
        exact hv
      · rw [Function.update_noteq hji] at hj
        rw [hsum]
        exact hread j w hj
  | writeFile i v hhr =>
    have hsum : sumContrib ⟨intChars (v + 1), s.lock, Function.update s.procs i .wroteBack⟩
        = sumContrib s + 1 := by
      show (Finset.univ.sum fun j => contrib (Function.update s.procs i .wroteBack j)) = _
      rw [sumContrib_update, hhr]
      simp [contrib]
    have hv : v = c0 + sumContrib s := hread i v hhr
    refine ⟨?_, ?_, ?_⟩
    · show parseCount (intChars (v + 1)) = _
      rw [parseCount_intChars, hsum, hv]
      ring_nf
    · intro j hj
      dsimp only at hj
      by_cases hji : j = i
      · subst hji
        exact hlock j (by rw [hhr]; rfl)
      · have : holding (s.procs j) = true := by simpa [Function.update_noteq hji] using hj
        exact hlock j this
    · intro j w hj
      dsimp only at hj
      by_cases hji : j = i
      · subst hji
        rw [Function.update_same] at hj
        exact absurd hj (by simp)
      · rw [Function.update_noteq hji] at hj
        have hlj := hlock j (by rw [hj]; rfl)
        have hli := hlock i (by rw [hhr]; rfl)
        have : j = i := by
          rw [hlj] at hli
          exact Option.some_inj.mp hli
        exact absurd this hji
  | release i hwb =>
    have hsum : sumContrib ⟨s.file, none, Function.update s.procs i .donePhase⟩
        = sumContrib s := by
      show (Finset.univ.sum fun j => contrib (Function.update s.procs i .donePhase j)) = _
      rw [sumContrib_update, hwb]
      simp [contrib]
    refine ⟨by rw [hsum]; exact hfile, ?_, ?_⟩
    · intro j hj
      dsimp only at hj
      by_cases hji : j = i
      · subst hji
        rw [Function.update_same] at hj
        exact absurd hj (by rw [holding_donePhase_false]; simp)
      · have hj' : holding (s.procs j) = true := by simpa [Function.update_noteq hji] using hj
        have hlj := hlock j hj'
        have hli := hlock i (by rw [hwb]; rfl)
        have : j = i := by
          rw [hlj] at hli
          exact Option.some_inj.mp hli
        exact absurd this hji
    · intro j w hj
      dsimp only at hj
      by_cases hji : j = i
      · subst hji
        rw [Function.update_same] at hj
        exact absurd hj (by simp)
      · rw [Function.update_noteq hji] at hj
        rw [hsum]
        exact hread j w hj

theorem incInv_init (M : Nat) (c0 : Int) : IncInv M c0 (initC M c0) := by
  refine ⟨?_, ?_, ?_⟩
  · show parseCount (intChars c0) = _
    have hsum : sumContrib (initC M c0) = 0 := by
      rw [sumContrib]
      exact Finset.sum_const_zero
    rw [parseCount_intChars, hsum]
    ring_nf
  · intro j hj
    exact absurd hj (by simp [initC, holding])
  · intro j v hj
    exact absurd hj (by simp [initC])

theorem incInv_run {M : Nat} {c0 : Int} {s : CState M}
    (hrun : Relation.ReflTransGen (IncStep M) (initC M c0) s) : IncInv M c0 s := by
  induction hrun with
  | refl => exact incInv_init M c0
  | tail _ hstep ih => exact incInv_step hstep ih

theorem sumContrib_done {M : Nat} (s : CState M) (h : ∀ i, s.procs i = .donePhase) :
    sumContrib s = (M : Int) := by
  rw [sumContrib]
  have hc : ∀ i ∈ Finset.univ, contrib (s.procs i) = 1 := fun i _ => by rw [h i]; rfl
  rw [Finset.sum_congr rfl hc, Finset.sum_const, Finset.card_univ, Fintype.card_fin]
  simp

/-- C8: `count_today` equals the maximum of the three sources — today's
history-file line count, the in-process cache value and the persisted
counter-file value — and is bounded below by each of them, so the
in-process cache is never trusted alone. -/
theorem count_today_max_of_three (s : LedgerState) (user today : Nat) :
    countToday s user today
      = max (max (((s.historyFile user today).length : Int)) ((s.cache user today : Int)))
          (readUsage (s.usageFile user today))
    ∧ ((s.historyFile user today).length : Int) ≤ countToday s user today
    ∧ ((s.cache user today : Int)) ≤ countToday s user today
    ∧ readUsage (s.usageFile user today) ≤ countToday s user today := by
  refine ⟨rfl, ?_, ?_, ?_⟩ <;> (rw [countToday]; omega)

/-- C10: `_read_usage` is total and never raises: a missing counter file
reads as 0, content whose parse raises reads as 0, and a stored
non-negative integer (the decimal rendering the writer produces) reads
back as itself, in particular non-negatively. -/
theorem read_usage_total :
    readUsage none = 0
    ∧ (∀ content : Str, parseCount content = none → readUsage (some content) = 0)
    ∧ (∀ n : Nat, readUsage (some (natChars n)) = (n : Int))
    ∧ (∀ n : Nat, 0 ≤ readUsage (some (natChars n))) := by
  refine ⟨rfl, ?_, readUsage_natChars, ?_⟩
  · intro content h
    have hr : readUsage (some content) = (parseCount content).getD 0 := rfl
    rw [hr, h]
    rfl
  · intro n
    rw [readUsage_natChars]
    exact Int.natCast_nonneg n

/-- Witness for C10 at a missing file, a corrupted file and the rendering
of 42. -/
theorem read_usage_total_witness :
    readUsage (some (String.toList "garbage")) = 0
    ∧ readUsage (some (natChars 42)) = (42 : Int) :=
  ⟨read_usage_total.2.1 (String.toList "garbage") (by decide),
   read_usage_total.2.2.1 42⟩

/-- C7: `list_history` returns entries most-recent-first — the exact
reverse of append order — with offset and limit applied after reversal,
skips lines that fail to decode instead of aborting, and reports `total`
as the full line count of the day's file independent of the pagination
window. -/
theorem list_history_pagination {E : Type} (decode : Str → Option E) (s : LedgerState)
    (user day offset limit : Nat) :
    (listHistory decode s user day offset limit).1
      = ((((s.historyFile user day).reverse.drop offset).filterMap decode).take limit)
    ∧ (listHistory decode s user day offset limit).2.1 = (s.historyFile user day).length := by
  constructor
  · rw [listHistory]
    dsimp only
    rw [listLoop_spec]
    simp
  · rfl

/-- C5 (code bug): the ingestion task never touches the document record —
the database after `process_document_task` is unchanged on every path, so
a document created as "pending" still has that record, status included,
after the task finishes. -/
theorem task_never_updates_document_status (env : TaskEnv) (store : DocStore) (db : DocsDb)
    (docId : Nat) (filePath : Str) :
    (processDocumentTask env store db docId filePath).2.2 = db
    ∧ (∀ d rec, db d = some rec →
        (processDocumentTask env store db docId filePath).2.2 d = some rec) := by
  have h : (processDocumentTask env store db docId filePath).2.2 = db := by
    rw [processDocumentTask]
    cases hp : env.parseDoc filePath with
    | none => rfl
    | some text =>
      dsimp only
      by_cases hc : (env.splitText text).isEmpty = true
      · rw [if_pos hc]
      · rw [if_neg hc]
        by_cases he : env.embedOk = true
        · rw [if_pos he]
        · rw [if_neg he]
  exact ⟨h, fun d rec hd => by rw [h]; exact hd⟩

/-- Witness for C5: the task runs to success on a pending document and the
record — status still "pending" — is untouched. -/
theorem task_never_updates_document_status_witness :
    (processDocumentTask testTaskEnv testStore testDb 1 (String.toList "uploads/1_a.txt")).2.2 1
      = some { filename := String.toList "a.txt", owner_id := 7,
               status := String.toList "pending", error := none } :=
  (task_never_updates_document_status testTaskEnv testStore testDb 1
      (String.toList "uploads/1_a.txt")).2 1 _ (by decide)

/-- C4 (code bug): with retrieval succeeding and the history append
failing, `ask_question` does not return the answer — the exception escapes
`append_history_entry` and the caller receives the generic 500 outcome
instead of the 200 answer. -/
theorem append_failure_drops_answer :
    (ask testEnvNoAppend emptyLedger 0 7 1 testQuestion 20).1 = .internalError
    ∧ isAnswer (ask testEnvNoAppend emptyLedger 0 7 1 testQuestion 20).1 = false
    ∧ httpStatus (ask testEnvNoAppend emptyLedger 0 7 1 testQuestion 20).1 = 500 := by
  refine ⟨?_, ?_, ?_⟩ <;> decide

/-- C6: a quota-blocked ask performs no retrieval work — the outcome is
QuotaExceeded with HTTP status 429, the ledger state is unchanged, and the
effect trace is empty: no index load, no embedding call, no search and no
chunk-store read. -/
theorem quota_blocks_before_retrieval (env : AskEnv) (s : LedgerState)
    (today user docId : Nat) (q : Str) (limit : Int)
    (h : countToday s user today ≥ limit) :
    ask env s today user docId q limit = (.quotaExceeded, s, ([] : List Effect))
    ∧ httpStatus .quotaExceeded = 429 :=
  ⟨ask_quota env s today user docId q limit h, rfl⟩

/-- Witness for C6 at the cache-reported limit of 20. -/
theorem quota_blocks_before_retrieval_witness :
    ask testEnv atLimitLedger 0 7 1 testQuestion 20
      = (.quotaExceeded, atLimitLedger, ([] : List Effect))
    ∧ httpStatus .quotaExceeded = 429 :=
  quota_blocks_before_retrieval testEnv atLimitLedger 0 7 1 testQuestion 20 (by decide)

/-- C3 (counterexample): with the index file present and the chunk file
absent, `ask` returns the NoContext empty-result response — not the
NotFound error the claim asserts for that case. -/
theorem ask_boundary_cex :
    (ask testEnvNoChunks emptyLedger 0 7 1 testQuestion 20).1 = .noContext
    ∧ ((ask testEnvNoChunks emptyLedger 0 7 1 testQuestion 20).1 == Outcome.notFound) = false := by
  exact ⟨by decide, by decide⟩

/-- C3 (amended): a missing index file yields NotFound (a raised 404 error)
even when a chunk file exists; with the index present, a missing chunk
file — and generally zero valid retrieved chunks — yields NoContext,
surfaced as a non-error empty-result response with the same 404 status,
distinct from NotFound. -/
theorem ask_boundary_amended (env : AskEnv) (s : LedgerState) (today user docId : Nat)
    (q : Str) (limit : Int) (hq : countToday s user today < limit) :
    (env.store.indexFile docId = none →
      (ask env s today user docId q limit).1 = .notFound)
    ∧ (env.store.chunkFile docId = none → retrievedChunks env docId q = [])
    ∧ ((env.store.indexFile docId).isSome = true → retrievedChunks env docId q = [] →
        (ask env s today user docId q limit).1 = .noContext)
    ∧ httpStatus .notFound = 404 ∧ httpStatus .noContext = 404
    ∧ isErrorRaised .notFound = true ∧ isErrorRaised .noContext = false
    ∧ (Outcome.noContext == Outcome.notFound) = false := by
  refine ⟨?_, ?_, ?_, rfl, rfl, rfl, rfl, rfl⟩
  · intro h
    rw [ask, if_neg (by omega), h]
  · intro h
    simp only [retrievedChunks, h, getChunksForDoc]
    apply List.filterMap_eq_nil_iff.mpr
    intro i _
    rw [if_neg]
    intro hcon
    obtain ⟨h1, h2⟩ := hcon
    simp at h2
    omega
  · intro hidx hempty
    obtain ⟨idx, hidx'⟩ := Option.isSome_iff_exists.mp hidx
    rw [ask, if_neg (by omega), hidx']
    dsimp only
    rw [hempty]
    rfl

/-- Witness for C3 (amended): document 2 has no index file → NotFound;
document 1 has an index but no chunk file → NoContext. -/
theorem ask_boundary_amended_witness :
    (ask testEnvNoChunks emptyLedger 0 7 2 testQuestion 20).1 = .notFound
    ∧ (ask testEnvNoChunks emptyLedger 0 7 1 testQuestion 20).1 = .noContext :=
  ⟨(ask_boundary_amended testEnvNoChunks emptyLedger 0 7 2 testQuestion 20 (by decide)).1
      (by decide),
   ((ask_boundary_amended testEnvNoChunks emptyLedger 0 7 1 testQuestion 20 (by decide)).2.2.1)
      (by decide) (by decide)⟩

/-- C2 (counterexample): the chunk store does not round-trip exactly —
leading whitespace of the first chunk is stripped on read, and a chunk
containing the separator is re-split into two chunks. -/
theorem chunk_roundtrip_cex :
    readChunksContent (chunksFileContent [String.toList " a"]) = [String.toList "a"]
    ∧ (readChunksContent (chunksFileContent [String.toList " a"])
        == [String.toList " a"]) = false
    ∧ readChunksContent (chunksFileContent [String.toList "a\n---\nb"])
        = [String.toList "a", String.toList "b"] := by
  refine ⟨?_, ?_, ?_⟩ <;> decide

/-- C2 (amended): provided no chunk contains a newline, the first chunk
does not begin with whitespace and the last does not end with whitespace,
reading the persisted chunk set back yields exactly the written chunks in
order with whitespace-only chunks omitted and every other chunk preserved
exactly; and the ingestion pipeline persists exactly the separator-joined
encoding of the chunk list it produced. -/
theorem chunk_roundtrip_amended (chunks : List Str) (hne : chunks ≠ [])
    (hnl : ∀ c ∈ chunks, '\n' ∉ c)
    (hfirst : headNonWs chunks.headI = true)
    (hlast : headNonWs (chunks.getLast hne).reverse = true) :
    readChunksContent (chunksFileContent chunks)
        = chunks.filter (fun c => !(c.all pyIsSpace))
    ∧ (∀ (env : TaskEnv) (store : DocStore) (db : DocsDb) (docId : Nat) (fp text : Str),
        env.parseDoc fp = some text → env.splitText text = chunks →
        (processDocumentTask env store db docId fp).2.1.chunkFile docId
          = some (chunksFileContent chunks)) := by
  refine ⟨readChunks_write chunks hne hnl hfirst hlast, ?_⟩
  intro env store db docId fp text hp hsplit
  rw [processDocumentTask, hp]
  dsimp only
  rw [hsplit]
  by_cases hc : chunks.isEmpty = true
  · rw [if_pos hc]
    simp
  · rw [if_neg hc]
    by_cases he : env.embedOk = true
    · rw [if_pos he]
      simp
    · rw [if_neg he]
      simp

/-- Witness for C2 (amended): the repository's own three test chunks
round-trip exactly. -/
theorem chunk_roundtrip_amended_witness :
    readChunksContent (chunksFileContent testChunks) = testChunks :=
  ((chunk_roundtrip_amended testChunks (by decide) (by decide) (by decide) (by decide)).1).trans
    (by decide)

/-- C1: quota invariant — starting from a fresh day, each of N ≤ L asks
returns the 200 answer and leaves `count(user, today) = N` with the
persisted usage counter also equal to N (each success increments it by
exactly one); when N = L the next ask raises QuotaExceeded (HTTP 429)
without producing an answer and without touching the state; and the
effective count for the next UTC day is 0. -/
theorem quota_invariant (env : AskEnv) (today user docId : Nat) (q : Str) (L N : Nat)
    (hidx : (env.store.indexFile docId).isSome = true)
    (hctx : retrievedChunks env docId q ≠ [])
    (hio : env.appendIOOk = true)
    (hNL : N ≤ L) :
    (∀ j : Nat, j < N →
      isAnswer (ask env (askIter env today user docId q (L : Int) j)
        today user docId q (L : Int)).1 = true)
    ∧ countToday (askIter env today user docId q (L : Int) N) user today = (N : Int)
    ∧ readUsage ((askIter env today user docId q (L : Int) N).usageFile user today) = (N : Int)
    ∧ (N = L →
        ask env (askIter env today user docId q (L : Int) N) today user docId q (L : Int)
          = (.quotaExceeded, askIter env today user docId q (L : Int) N, ([] : List Effect))
        ∧ httpStatus .quotaExceeded = 429)
    ∧ countToday (askIter env today user docId q (L : Int) N) user (today + 1) = 0 := by
  obtain ⟨h1, h2, h3, h4, h5⟩ :=
    askIter_inv env today user docId q (L : Int) hidx hctx hio N (by exact_mod_cast hNL)
  have hcount := countToday_of_parts _ user today N h1 h2 h3
  refine ⟨h5, hcount, ?_, ?_, ?_⟩
  · by_cases hN : N = 0
    · rw [h3, if_pos hN, readUsage_none, hN]
      rfl
    · rw [h3, if_neg hN, readUsage_natChars]
  · intro hNLeq
    refine ⟨ask_quota env _ today user docId q (L : Int) ?_, rfl⟩
    rw [hcount, hNLeq]
  · obtain ⟨e1, e2, e3⟩ := h4 user (today + 1) (fun hud => by omega)
    rw [countToday, e1, e2, e3, readUsage_none]
    rfl

/-- Witness for C1: two successful asks under a limit of three, counted as
2 today and 0 the next day. -/
theorem quota_invariant_witness :
    countToday (askIter testEnv 0 7 1 testQuestion ((3 : Nat) : Int) 2) 7 0 = (2 : Int)
    ∧ countToday (askIter testEnv 0 7 1 testQuestion ((3 : Nat) : Int) 2) 7 1 = 0 :=
  ⟨(quota_invariant testEnv 0 7 1 testQuestion 3 2 (by decide) (by decide) rfl
      (by omega)).2.1,
   (quota_invariant testEnv 0 7 1 testQuestion 3 2 (by decide) (by decide) rfl
      (by omega)).2.2.2.2⟩

/-- C9: M concurrent `_inc_usage` calls on the same (user, day) counter
file — interleaved arbitrarily under the mutual exclusion that `flock`
provides — leave the persisted count at exactly its initial value plus M:
no lost updates, no interleaved partial writes. -/
theorem concurrent_increments_exact (M : Nat) (c0 : Int) (s : CState M)
    (hrun : Relation.ReflTransGen (IncStep M) (initC M c0) s)
    (hdone : ∀ i, s.procs i = .donePhase) :
    parseCount s.file = some (c0 + (M : Int)) := by
  have hinv := incInv_run hrun
  rw [hinv.fileOk, sumContrib_done s hdone]

/-- Witness for C9: one full acquire → read → write → release run from an
initial count of 0 ends with the file parsing to 1. -/
theorem concurrent_increments_exact_witness :
    parseCount oneRunFinal.file = some ((0 : Int) + ((1 : Nat) : Int)) := by
  refine concurrent_increments_exact 1 0 oneRunFinal ?_ ?_
  · exact Relation.ReflTransGen.tail
      (Relation.ReflTransGen.tail
        (Relation.ReflTransGen.tail
          (Relation.ReflTransGen.single (IncStep.acquire (initC 1 0) 0 rfl rfl))
          (IncStep.readFile _ 0 0 (by simp [Function.update]) (by decide)))
        (IncStep.writeFile _ 0 0 (by simp [Function.update])))
      (IncStep.release _ 0 (by simp [Function.update]))
  · intro i
    fin_cases i
    simp [oneRunFinal, Function.update]

end SKA
